import Mathlib

/-!
Shallow embedding of the client-side orchestration core of the Alias
repository (src/frontend/src/App.tsx and the variant in src/unnamed/part_001):
the progress simulator / result reconciler state machine, the record
projection, the filter/selection engine, and the presentation-settings state.

Conventions of the embedding:
* TypeScript strings are Lean `String`s; `x ?? y` on an optional field is
  `Option.getD`; a field that may be `undefined` or `null` is an `Option`
  (the two JavaScript "absent" values are not distinguished by any embedded
  code path, which only ever tests them with `??`, `?.` or truthiness).
* `created_at` (an ISO timestamp string compared through
  `new Date(...).getTime()`) is modelled directly as the numeric timestamp
  (`Nat`), since the code only ever uses its numeric value for ordering.
* Fractional confidence values are modelled as `Option Rat`; no embedded
  code path computes with them, they are only carried.
* Browser interval timers are modelled explicitly: a list of live timer
  ids plus the single `progressTimerRef` cell, so that scheduling and
  cancellation behaviour is part of the state.
-/

/-- Display state of one stage row (`StageState` in App.tsx line 90). -/
inductive StageState where
  | idle
  | pending
  | active
  | done
  | warning
  | error
  | skipped
deriving DecidableEq, Repr

/-- Authoritative per-stage outcome (`StageStatus['status']` in types.ts:
`'success' | 'low-confidence' | 'no-results' | 'skipped'`). -/
inductive OutcomeStatus where
  | success
  | lowConfidence
  | noResults
  | skipped
deriving DecidableEq, Repr

instance : BEq OutcomeStatus := instBEqOfDecidableEq

/-- One authoritative stage history entry (`StageStatus` in types.ts). -/
structure StageStatus where
  name : String
  status : OutcomeStatus
  provider : Option String := none
  confidence : Option Rat := none
  urls_considered : Option Nat := none
  message : Option String := none
deriving DecidableEq, Repr

/-- One display entry (`StageProgressEntry` in App.tsx line 132). -/
structure StageProgressEntry where
  name : String
  state : StageState
  message : Option String := none
deriving DecidableEq, Repr

/-- The fixed ordered stage vocabulary (App.tsx line 88). -/
def STAGE_SEQUENCE : List String := ["Internet", "googlesearch", "OpenAI"]

/-- The label table (App.tsx lines 92-96); a partial key-indexed record,
so the lookup returns `none` off the three stage names. -/
def stageLabels (name : String) : Option String :=
  if name = "Internet" then some "Internet · общий поиск"
  else if name = "googlesearch" then some "GoogleSearch · Google CSE"
  else if name = "OpenAI" then some "OpenAI · ChatGPT"
  else none

/-- The lookup pattern `stageLabels[n] ?? n` used at App.tsx lines 938 and
1157 (and the total record access on a known `StageName`, where the
fallback branch is unreachable). -/
def labelOf (name : String) : String :=
  (stageLabels name).getD name

/-- Mapping from authoritative outcome to display state
(App.tsx lines 1141-1148). -/
def mapOutcome : OutcomeStatus → StageState
  | .success => .done
  | .lowConfidence => .warning
  | .noResults => .error
  | .skipped => .skipped

/-- Embeds `prev.map((entry, idx) => f(idx, entry))`: a map that also passes the
element index, used by the simulator tick (App.tsx lines 1111-1117). -/
def mapWithIdx (f : Nat → α → β) : Nat → List α → List β
  | _, [] => []
  | i, a :: l => f i a :: mapWithIdx f (i + 1) l

/-- The mutable state touched by the progress simulator and reconciler:
`stageProgress`, `currentService`, `progressIndexRef`, `progressTimerRef`
(App.tsx lines 999-1009), together with the set of live interval timers. -/
structure ProgressModel where
  stageProgress : List StageProgressEntry
  currentService : String
  progressIndex : Nat
  timerRef : Option Nat
  liveTimers : List Nat
  nextTimerId : Nat
deriving DecidableEq, Repr

/-- Initial state: all stages `idle` (App.tsx lines 999-1001), service
sentinel (line 1007), no timer. -/
def initProgress : ProgressModel :=
  { stageProgress := STAGE_SEQUENCE.map (fun name => { name := name, state := .idle })
    currentService := "—"
    progressIndex := 0
    timerRef := none
    liveTimers := []
    nextTimerId := 0 }

/-- Embeds `resetProgress` (App.tsx lines 1079-1082). -/
def resetProgress (s : ProgressModel) : ProgressModel :=
  { s with
    stageProgress := STAGE_SEQUENCE.map (fun name => { name := name, state := .idle })
    currentService := "—" }

/-- Embeds `startProgress` (App.tsx lines 1100-1124): clear any running timer,
reset the cursor, mark stage 0 active, schedule a fresh interval. -/
def startProgress (s : ProgressModel) : ProgressModel :=
  let live := match s.timerRef with
    | some t => s.liveTimers.erase t
    | none => s.liveTimers
  { stageProgress :=
      mapWithIdx
        (fun index name =>
          { name := name, state := if index = 0 then .active else .pending })
        0 STAGE_SEQUENCE
    currentService := labelOf (STAGE_SEQUENCE.getD 0 "")
    progressIndex := 0
    timerRef := some s.nextTimerId
    liveTimers := live ++ [s.nextTimerId]
    nextTimerId := s.nextTimerId + 1 }

/-- Stage rewrite inside the tick callback (App.tsx lines 1111-1117):
`prev.map((entry, idx) => ...)` against the new cursor `i`. -/
def tickStages (i : Nat) (l : List StageProgressEntry) : List StageProgressEntry :=
  mapWithIdx
    (fun idx entry =>
      if idx < i then { entry with state := .done }
      else if idx = i then { entry with state := .active }
      else { entry with state := .pending })
    0 l

/-- Body of the interval callback scheduled by `startProgress`
(App.tsx lines 1109-1123). -/
def tickBody (s : ProgressModel) : ProgressModel :=
  let i := min (s.progressIndex + 1) (STAGE_SEQUENCE.length - 1)
  let s' :=
    { s with
      progressIndex := i
      stageProgress := tickStages i s.stageProgress
      currentService := labelOf (STAGE_SEQUENCE.getD i "") }
  if i = STAGE_SEQUENCE.length - 1 then
    match s'.timerRef with
    | some t => { s' with liveTimers := s'.liveTimers.erase t, timerRef := none }
    | none => s'
  else s'

/-- A timer tick: the callback only runs while its interval is still
scheduled (cleared intervals never fire). -/
def tickProgress (s : ProgressModel) : ProgressModel :=
  match s.liveTimers with
  | [] => s
  | _ :: _ => tickBody s

/-- Embeds `finishProgress` (App.tsx lines 1126-1161): cancel the simulator timer,
then either fully reset (no history) or write the reconciled stage states
and the current-service label. -/
def finishProgress (s : ProgressModel) (history : Option (List StageStatus)) :
    ProgressModel :=
  let s :=
    match s.timerRef with
    | some t => { s with liveTimers := s.liveTimers.erase t, timerRef := none }
    | none => s
  match history with
  | none => resetProgress s
  | some [] => resetProgress s
  | some hist =>
    { s with
      stageProgress :=
        STAGE_SEQUENCE.map (fun name =>
          match hist.find? (fun item => item.name == name) with
          | none => { name := name, state := .pending }
          | some stage =>
            { name := name, state := mapOutcome stage.status, message := stage.message })
      currentService :=
        match (hist.reverse.find? (fun stage => stage.status == .success)).or
            (hist.find? (fun stage => stage.status == .lowConfidence)) with
        | some finalStage => labelOf finalStage.name
        | none => "—" }

/-- The unmount cleanup effect (App.tsx lines 1176-1182): clears the
interval but leaves the ref value in place. -/
def unmountCleanup (s : ProgressModel) : ProgressModel :=
  match s.timerRef with
  | some t => { s with liveTimers := s.liveTimers.erase t }
  | none => s

/-- The events that touch the progress state. -/
inductive ProgressOp where
  | start
  | tick
  | finish (history : Option (List StageStatus))
  | cleanup
deriving Repr

/-- One event step. -/
def progressStep (s : ProgressModel) : ProgressOp → ProgressModel
  | .start => startProgress s
  | .tick => tickProgress s
  | .finish history => finishProgress s history
  | .cleanup => unmountCleanup s

/-- Run an arbitrary interleaving of events from the initial state. -/
def runProgress (ops : List ProgressOp) : ProgressModel :=
  ops.foldl progressStep initProgress

/-- Embeds `MatchStatus` without the `null` member (types.ts line 12); absence is
modelled by `Option`. -/
inductive MatchKind where
  | matched
  | mismatch
  | pending
deriving DecidableEq, Repr

instance : BEq MatchKind := instBEqOfDecidableEq

/-- A canonical part record (`PartRead` in types.ts lines 54-57 over
`SearchResult` lines 23-39); `created_at` is modelled as the numeric
timestamp the comparator extracts with `new Date(...).getTime()`. -/
structure PartRead where
  id : Nat
  part_number : String
  manufacturer_name : Option String := none
  alias_used : Option String := none
  submitted_manufacturer : Option String := none
  match_status : Option MatchKind := none
  match_confidence : Option Rat := none
  confidence : Option Rat := none
  source_url : Option String := none
  debug_log : Option String := none
  search_stage : Option String := none
  stage_history : Option (List StageStatus) := none
  created_at : Nat
deriving DecidableEq, Repr

/-- A display row, as built by `tableData` (App.tsx lines 927-944). -/
structure TableRow where
  id : Nat
  key : String
  article : String
  manufacturer : String
  -- source field name: alias (a reserved word in Lean)
  aliasUsed : String
  submitted : String
  matchStatus : Option MatchKind
  matchConfidence : Option Rat
  confidence : Option Rat
  service : String
  source : String
  stageHistory : List StageStatus
  debugLog : Option String
  createdAt : Nat
deriving DecidableEq, Repr

/-- The per-record projection inside `tableData` (App.tsx lines 927-944).
`record.search_stage ? ... : '—'` is a truthiness test, so an empty-string
stage also renders the sentinel. -/
def projectRecord (record : PartRead) : TableRow :=
  { id := record.id
    key := toString record.id ++ "-" ++ record.part_number
    article := record.part_number
    manufacturer := record.manufacturer_name.getD "—"
    aliasUsed := record.alias_used.getD "—"
    submitted := record.submitted_manufacturer.getD "—"
    matchStatus := record.match_status
    matchConfidence := record.match_confidence
    confidence := record.confidence
    service :=
      match record.search_stage with
      | none => "—"
      | some stage => if stage = "" then "—" else labelOf stage
    source := record.source_url.getD "—"
    stageHistory := record.stage_history.getD []
    debugLog := record.debug_log
    createdAt := record.created_at }

/-- The sort key relation of `tableData`'s comparator
(`new Date(a.created_at).getTime() - new Date(b.created_at).getTime()`,
App.tsx lines 924-926). -/
def createdLe (a b : PartRead) : Prop :=
  a.created_at ≤ b.created_at

instance : DecidableRel createdLe := fun a b => Nat.decLe a.created_at b.created_at

instance : IsTotal PartRead createdLe := ⟨fun a b => Nat.le_total a.created_at b.created_at⟩

instance : IsTrans PartRead createdLe := ⟨fun _x _y _z => Nat.le_trans⟩

/-- Embeds `tableData` (App.tsx lines 923-945): a stable ascending sort by
`created_at` (ECMAScript `Array.prototype.sort` is stable), then the
row projection. -/
def tableData (history : List PartRead) : List TableRow :=
  (List.insertionSort createdLe history).map projectRecord

/-- The three-valued manufacturer filter (App.tsx line 895). -/
inductive ManufacturerFilter where
  | all
  | found
  | missing
deriving DecidableEq, Repr

instance : BEq ManufacturerFilter := instBEqOfDecidableEq

/-- The categoric match filter (App.tsx line 903). -/
inductive MatchFilter where
  | all
  | matched
  | mismatch
  | pending
  | none
deriving DecidableEq, Repr

/-- The per-column free-text filters plus the match filter
(App.tsx lines 896-912). -/
structure TableFilters where
  article : String := ""
  manufacturer : String := ""
  -- source field name: alias (a reserved word in Lean)
  aliasUsed : String := ""
  submitted : String := ""
  service : String := ""
  source : String := ""
  matchFilter : MatchFilter := .all
deriving DecidableEq, Repr

/-- Contiguous-sublist test on character lists, the semantics of
JavaScript `String.prototype.includes`. -/
def listContains (hay needle : List Char) : Bool :=
  match hay with
  | [] => needle.isEmpty
  | _ :: rest => needle.isPrefixOf hay || listContains rest needle

/-- Embeds `s.includes(term)` (note that `s.includes('')` is `true`). -/
def jsIncludes (s term : String) : Bool :=
  listContains s.toList term.toList

/-- Models `String.prototype.trim`: strip leading and trailing whitespace. -/
def jsTrim (s : String) : String :=
  ⟨((s.data.dropWhile Char.isWhitespace).reverse.dropWhile Char.isWhitespace).reverse⟩

/-- Models `String.prototype.toLowerCase` by per-character case mapping
(the two agree on the ASCII data these filters compare). -/
def jsToLower (s : String) : String :=
  ⟨s.data.map Char.toLower⟩

/-- The row predicate of `filteredTableData` (App.tsx lines 946-980):
the found/missing early exits, then the conjunction of the six
case-insensitive substring filters and the match-status filter. -/
def rowMatchesFilters (tf : TableFilters) (mf : ManufacturerFilter)
    (row : TableRow) : Bool :=
  let articleTerm := jsToLower (jsTrim tf.article)
  let manufacturerTerm := jsToLower (jsTrim tf.manufacturer)
  let aliasTerm := jsToLower (jsTrim tf.aliasUsed)
  let submittedTerm := jsToLower (jsTrim tf.submitted)
  let serviceTerm := jsToLower (jsTrim tf.service)
  let sourceTerm := jsToLower (jsTrim tf.source)
  let isFound := !(row.manufacturer == "—") && !(row.matchStatus == some .mismatch)
  let isMissing := (row.manufacturer == "—") || (row.matchStatus == some .mismatch)
  if mf == .found && !isFound then false
  else if mf == .missing && !isMissing then false
  else
    jsIncludes (jsToLower row.article) articleTerm &&
    jsIncludes (jsToLower row.manufacturer) manufacturerTerm &&
    jsIncludes (jsToLower row.aliasUsed) aliasTerm &&
    jsIncludes (jsToLower row.submitted) submittedTerm &&
    jsIncludes (jsToLower row.service) serviceTerm &&
    jsIncludes (jsToLower row.source) sourceTerm &&
    (match tf.matchFilter with
     | .all => true
     | .none => row.matchStatus == Option.none
     | .matched => row.matchStatus == some .matched
     | .mismatch => row.matchStatus == some .mismatch
     | .pending => row.matchStatus == some .pending)

/-- Embeds `filteredTableData` (App.tsx lines 946-981). -/
def filteredTableData (tf : TableFilters) (mf : ManufacturerFilter)
    (rows : List TableRow) : List TableRow :=
  rows.filter (rowMatchesFilters tf mf)

/-- The selection-pruning effect (App.tsx lines 994-996):
`prev.filter((id) => filteredTableData.some((row) => row.id === id))`. -/
def pruneSelection (prev : List Nat) (filteredRows : List TableRow) : List Nat :=
  prev.filter (fun id => filteredRows.any (fun row => row.id == id))

/-- Density option of the table (`tableSize`, part_001 line 392). -/
inductive TableSizeOpt where
  | small
  | medium
deriving DecidableEq, Repr

/-- Font-size tier (`fontSize`, part_001 line 393). -/
inductive FontSizeOpt where
  | small
  | medium
  | large
deriving DecidableEq, Repr

/-- Theme mode (part_001/App.tsx: `'light' | 'dark' | 'holiday'`). -/
inductive ThemeMode where
  | light
  | dark
  | holiday
deriving DecidableEq, Repr

/-- Serialized form of the theme mode written to storage. -/
def themeModeString : ThemeMode → String
  | .light => "light"
  | .dark => "dark"
  | .holiday => "holiday"

/-- Embeds `{...prev, [key]: value}` on a key-indexed object, or a storage
`setItem`: replace the binding when the key exists, append otherwise. -/
def setAssoc (key : String) (value : α) : List (String × α) → List (String × α)
  | [] => [(key, value)]
  | (k, v) :: rest =>
    if k = key then (k, value) :: rest else (k, v) :: setAssoc key value rest

/-- Key lookup in an assoc list (object property read / storage `getItem`). -/
def getAssoc (key : String) : List (String × α) → Option α
  | [] => none
  | (k, v) :: rest => if k = key then some v else getAssoc key rest

/-- The presentation-settings state of part_001 together with the
browser-local persisted store: `tableSize`/`fontSize`/`columnWidths`
(part_001 lines 392-403), `themeMode`, and the `localStorage` contents.
The only storage writes in the source are the auth effect and the theme
effect (part_001 lines 584-595); none of the settings states has one. -/
structure SettingsModel where
  tableSize : TableSizeOpt
  fontSize : FontSizeOpt
  columnWidths : List (String × Int)
  themeMode : ThemeMode
  storage : List (String × String)
deriving DecidableEq, Repr

/-- Defaults on first load (part_001 lines 392-403), with empty storage. -/
def initialSettings : SettingsModel :=
  { tableSize := .small
    fontSize := .medium
    columnWidths :=
      [("article", 120), ("manufacturer", 150), ("alias", 120), ("submitted", 120),
       ("match", 120), ("confidence", 100), ("source", 200), ("actions", 300)]
    themeMode := .light
    storage := [] }

/-- Embeds `handleColumnResize` (part_001 lines 789-794):
`setColumnWidths(prev => ({...prev, [column]: Math.max(80, width)}))`. -/
def handleColumnResize (s : SettingsModel) (column : String) (width : Int) :
    SettingsModel :=
  { s with columnWidths := setAssoc column (max 80 width) s.columnWidths }

/-- Embeds `setTableSize` (part_001 line 392): an in-memory state update. -/
def applyTableSize (s : SettingsModel) (value : TableSizeOpt) : SettingsModel :=
  { s with tableSize := value }

/-- Embeds `setFontSize` (part_001 line 393): an in-memory state update. -/
def applyFontSize (s : SettingsModel) (value : FontSizeOpt) : SettingsModel :=
  { s with fontSize := value }

/-- Embeds `setThemeMode` together with its persistence effect
(part_001 lines 593-595: `localStorage.setItem(THEME_STORAGE_KEY, themeMode)`). -/
def applyThemeMode (s : SettingsModel) (value : ThemeMode) : SettingsModel :=
  { s with
    themeMode := value
    storage := setAssoc "aliasfinder:theme" (themeModeString value) s.storage }

/-- A per-item search result (`SearchResult` in types.ts lines 23-39);
only the fields the embedded code reads are carried. -/
structure SearchResult where
  part_number : String
  manufacturer_name : Option String := none
  alias_used : Option String := none
  submitted_manufacturer : Option String := none
  match_status : Option MatchKind := none
  source_url : Option String := none
  search_stage : Option String := none
  stage_history : Option (List StageStatus) := none
deriving DecidableEq, Repr

/-- Embeds `response.results[0]?.stage_history` (App.tsx line 1285). -/
def latestStageHistory (results : List SearchResult) :
    Option (List StageStatus) :=
  match results.head? with
  | none => none
  | some first => first.stage_history

/-- The reconciliation performed after a search settles
(App.tsx lines 1282-1296): `finishProgress(response.results[0]?.stage_history)`. -/
def reconcileSearch (s : ProgressModel) (results : List SearchResult) :
    ProgressModel :=
  finishProgress s (latestStageHistory results)

theorem length_mapWithIdx (f : Nat → α → β) (i : Nat) (l : List α) :
    (mapWithIdx f i l).length = l.length := by
  induction l generalizing i with
  | nil => rfl
  | cons a l ih => simp [mapWithIdx, ih]

theorem get_mapWithIdx (f : Nat → α → β) (i j : Nat) (l : List α)
    (h : j < (mapWithIdx f i l).length) (h' : j < l.length) :
    (mapWithIdx f i l).get ⟨j, h⟩ = f (i + j) (l.get ⟨j, h'⟩) := by
  induction l generalizing i j with
  | nil => exact absurd h' (Nat.not_lt_zero j)
  | cons a l ih =>
    cases j with
    | zero => simp [mapWithIdx]
    | succ j =>
      have hj : j < (mapWithIdx f (i + 1) l).length := by
        rw [length_mapWithIdx]
        exact Nat.lt_of_succ_lt_succ h'
      have hj' : j < l.length := Nat.lt_of_succ_lt_succ h'
      show (mapWithIdx f (i + 1) l).get ⟨j, hj⟩ = _
      rw [ih (i + 1) j hj hj']
      have : i + 1 + j = i + (j + 1) := by omega
      rw [this]
      rfl

theorem find?_eq_head_filter (p : α → Bool) (l : List α) :
    l.find? p = (l.filter p).head? := by
  induction l with
  | nil => rfl
  | cons a l ih =>
    cases h : p a
    · simp only [List.find?_cons, List.filter_cons, h, ih]
      rfl
    · simp only [List.find?_cons, List.filter_cons, h]
      rfl

theorem reverse_find?_eq_getLast?_filter (p : α → Bool) (l : List α) :
    l.reverse.find? p = (l.filter p).getLast? := by
  rw [find?_eq_head_filter, List.filter_reverse, List.head?_reverse]

/-- Timer hygiene: at most one live interval, and any live interval is
the one held in `progressTimerRef`. -/
def TimerInv (s : ProgressModel) : Prop :=
  s.liveTimers.length ≤ 1 ∧ ∀ t ∈ s.liveTimers, s.timerRef = some t

/-- The stage list shows the simulator frame with cursor `k`: earlier
stages `done`, the cursor `active`, later stages `pending`. -/
def SimFrame (l : List StageProgressEntry) (k : Nat) : Prop :=
  ∀ i (h : i < l.length),
    (l.get ⟨i, h⟩).state =
      if i < k then StageState.done
      else if i = k then StageState.active
      else StageState.pending

/-- Every reachable stage list either shows no `active` entry at all
(idle or reconciled phases) or is exactly one simulator frame. -/
def StageInv (l : List StageProgressEntry) : Prop :=
  (∀ e ∈ l, e.state ≠ StageState.active) ∨ ∃ k, SimFrame l k

/-- The inductive invariant of the progress state machine. -/
def ProgressInv (s : ProgressModel) : Prop :=
  TimerInv s ∧ StageInv s.stageProgress

theorem timerInv_erase_ref {s : ProgressModel} {t : Nat} (h : TimerInv s)
    (href : s.timerRef = some t) : s.liveTimers.erase t = [] := by
  obtain ⟨hlen, hmem⟩ := h
  match hl : s.liveTimers with
  | [] => rfl
  | [u] =>
    have : s.timerRef = some u := hmem u (by rw [hl]; exact List.mem_singleton_self u)
    have hut : u = t := by
      rw [href] at this
      exact (Option.some_inj.mp this).symm
    simp [hut, List.erase_cons_head]
  | u :: v :: rest =>
    rw [hl] at hlen
    simp at hlen

theorem timerInv_live_nil {s : ProgressModel} (h : TimerInv s)
    (href : s.timerRef = none) : s.liveTimers = [] := by
  obtain ⟨_, hmem⟩ := h
  match hl : s.liveTimers with
  | [] => rfl
  | u :: rest =>
    have : s.timerRef = some u := hmem u (by rw [hl]; exact List.mem_cons_self u rest)
    rw [href] at this
    cases this

theorem progressInv_init : ProgressInv initProgress := by
  constructor
  · exact ⟨by decide, by intro t ht; cases ht⟩
  · left
    intro e he
    simp only [initProgress, List.mem_map] at he
    obtain ⟨name, _, rfl⟩ := he
    simp

theorem simFrame_tickStages (i : Nat) (l : List StageProgressEntry) :
    SimFrame (tickStages i l) i := by
  intro j hj
  have hj' : j < l.length := by
    simpa [tickStages, length_mapWithIdx] using hj
  have main :
      (tickStages i l).get ⟨j, hj⟩ =
        (fun idx (entry : StageProgressEntry) =>
          if idx < i then { entry with state := .done }
          else if idx = i then { entry with state := .active }
          else { entry with state := .pending }) (0 + j) (l.get ⟨j, hj'⟩) :=
    get_mapWithIdx _ 0 j l hj hj'
  rw [main]
  simp only [Nat.zero_add]
  split_ifs <;> rfl

theorem simFrame_startStages :
    SimFrame
      (mapWithIdx
        (fun index name =>
          ({ name := name,
             state := if index = 0 then .active else .pending } : StageProgressEntry))
        0 STAGE_SEQUENCE) 0 := by
  intro j hj
  have hj' : j < STAGE_SEQUENCE.length := by
    simpa [length_mapWithIdx] using hj
  have main :
      (mapWithIdx
        (fun index name =>
          ({ name := name,
             state := if index = 0 then .active else .pending } : StageProgressEntry))
        0 STAGE_SEQUENCE).get ⟨j, hj⟩ =
        (fun index name =>
          ({ name := name,
             state := if index = 0 then .active else .pending } : StageProgressEntry))
          (0 + j) (STAGE_SEQUENCE.get ⟨j, hj'⟩) :=
    get_mapWithIdx _ 0 j STAGE_SEQUENCE hj hj'
  rw [main]
  simp only [Nat.zero_add]
  split_ifs with h1 h2 h3 <;> first | rfl | omega

theorem progressInv_start {s : ProgressModel} (h : ProgressInv s) :
    ProgressInv (startProgress s) := by
  obtain ⟨htimer, _⟩ := h
  have hlive : (startProgress s).liveTimers = [s.nextTimerId] := by
    match href : s.timerRef with
    | some t =>
      simp only [startProgress, href]
      rw [timerInv_erase_ref htimer href]
      rfl
    | none =>
      simp only [startProgress, href]
      rw [timerInv_live_nil htimer href]
      rfl
  constructor
  · refine ⟨?_, ?_⟩
    · rw [hlive]
      exact Nat.le_refl 1
    · intro t ht
      rw [hlive, List.mem_singleton] at ht
      subst ht
      rfl
  · right
    exact ⟨0, simFrame_startStages⟩

theorem progressInv_tickBody {s : ProgressModel} (h : ProgressInv s) :
    ProgressInv (tickBody s) := by
  obtain ⟨htimer, _⟩ := h
  by_cases hi :
      min (s.progressIndex + 1) (STAGE_SEQUENCE.length - 1) = STAGE_SEQUENCE.length - 1
  · match href : s.timerRef with
    | some t =>
      have herase := timerInv_erase_ref htimer href
      refine ⟨⟨?_, ?_⟩, ?_⟩
      · simp [tickBody, hi, href, herase]
      · intro x hx
        simp [tickBody, hi, href, herase] at hx
      · right
        refine ⟨min (s.progressIndex + 1) (STAGE_SEQUENCE.length - 1), ?_⟩
        have hcore := simFrame_tickStages
          (min (s.progressIndex + 1) (STAGE_SEQUENCE.length - 1)) s.stageProgress
        simp only [tickBody, hi, if_pos, href]
        simpa [hi] using hcore
    | none =>
      refine ⟨⟨?_, ?_⟩, ?_⟩
      · simp only [tickBody, hi, if_pos, href]
        exact htimer.1
      · intro x hx
        simp only [tickBody, hi, if_pos, href] at hx
        rw [timerInv_live_nil htimer href] at hx
        cases hx
      · right
        refine ⟨min (s.progressIndex + 1) (STAGE_SEQUENCE.length - 1), ?_⟩
        have hcore := simFrame_tickStages
          (min (s.progressIndex + 1) (STAGE_SEQUENCE.length - 1)) s.stageProgress
        simp only [tickBody, hi, if_pos, href]
        simpa [hi] using hcore
  · refine ⟨⟨?_, ?_⟩, ?_⟩
    · simp only [tickBody, if_neg hi]
      exact htimer.1
    · intro x hx
      simp only [tickBody, if_neg hi] at hx ⊢
      exact htimer.2 x hx
    · right
      refine ⟨min (s.progressIndex + 1) (STAGE_SEQUENCE.length - 1), ?_⟩
      have hcore := simFrame_tickStages
        (min (s.progressIndex + 1) (STAGE_SEQUENCE.length - 1)) s.stageProgress
      simp only [tickBody, if_neg hi]
      exact hcore

theorem progressInv_tick {s : ProgressModel} (h : ProgressInv s) :
    ProgressInv (tickProgress s) := by
  match hl : s.liveTimers with
  | [] =>
    rw [tickProgress, hl]
    exact h
  | u :: rest =>
    rw [tickProgress, hl]
    exact progressInv_tickBody h

theorem stageInv_reset :
    StageInv (STAGE_SEQUENCE.map
      (fun name => ({ name := name, state := .idle } : StageProgressEntry))) := by
  left
  intro e he
  simp only [List.mem_map] at he
  obtain ⟨name, _, rfl⟩ := he
  simp

theorem stageInv_reconciled (hist : List StageStatus) :
    StageInv (STAGE_SEQUENCE.map (fun name =>
      match hist.find? (fun item => item.name == name) with
      | none => ({ name := name, state := .pending } : StageProgressEntry)
      | some stage =>
        { name := name, state := mapOutcome stage.status, message := stage.message })) := by
  left
  intro e he
  simp only [List.mem_map] at he
  obtain ⟨name, _, rfl⟩ := he
  match hf : hist.find? (fun item => item.name == name) with
  | none => simp [hf]
  | some stage =>
    simp only [hf]
    cases hst : stage.status <;> simp [mapOutcome, hst]

theorem finishProgress_timers {s : ProgressModel} (h : TimerInv s)
    (history : Option (List StageStatus)) :
    (finishProgress s history).liveTimers = [] ∧
      (finishProgress s history).timerRef = none := by
  match href : s.timerRef with
  | some t =>
    have herase := timerInv_erase_ref h href
    match history with
    | none => simp [finishProgress, resetProgress, href, herase]
    | some [] => simp [finishProgress, resetProgress, href, herase]
    | some (e :: rest) => simp [finishProgress, href, herase]
  | none =>
    have hnil := timerInv_live_nil h href
    match history with
    | none => simp [finishProgress, resetProgress, href, hnil]
    | some [] => simp [finishProgress, resetProgress, href, hnil]
    | some (e :: rest) => simp [finishProgress, href, hnil]

theorem progressInv_finish {s : ProgressModel} (h : ProgressInv s)
    (history : Option (List StageStatus)) :
    ProgressInv (finishProgress s history) := by
  obtain ⟨htimer, _⟩ := h
  obtain ⟨hlive, _⟩ := finishProgress_timers htimer history
  refine ⟨⟨?_, ?_⟩, ?_⟩
  · rw [hlive]
    exact Nat.zero_le 1
  · intro x hx
    rw [hlive] at hx
    cases hx
  · match history with
    | none =>
      match href : s.timerRef with
      | some t => simpa [finishProgress, resetProgress, href] using stageInv_reset
      | none => simpa [finishProgress, resetProgress, href] using stageInv_reset
    | some [] =>
      match href : s.timerRef with
      | some t => simpa [finishProgress, resetProgress, href] using stageInv_reset
      | none => simpa [finishProgress, resetProgress, href] using stageInv_reset
    | some (e :: rest) =>
      match href : s.timerRef with
      | some t =>
        simpa [finishProgress, href] using stageInv_reconciled (e :: rest)
      | none =>
        simpa [finishProgress, href] using stageInv_reconciled (e :: rest)

theorem progressInv_cleanup {s : ProgressModel} (h : ProgressInv s) :
    ProgressInv (unmountCleanup s) := by
  obtain ⟨htimer, hstage⟩ := h
  match href : s.timerRef with
  | some t =>
    have herase := timerInv_erase_ref htimer href
    refine ⟨⟨?_, ?_⟩, ?_⟩
    · simp [unmountCleanup, href, herase]
    · intro x hx
      simp [unmountCleanup, href, herase] at hx
    · simpa [unmountCleanup, href] using hstage
  | none =>
    simp only [unmountCleanup, href]
    exact ⟨htimer, hstage⟩

theorem progressInv_step (s : ProgressModel) (op : ProgressOp)
    (h : ProgressInv s) : ProgressInv (progressStep s op) := by
  cases op with
  | start => exact progressInv_start h
  | tick => exact progressInv_tick h
  | finish history => exact progressInv_finish h history
  | cleanup => exact progressInv_cleanup h

theorem progressInv_run (ops : List ProgressOp) : ProgressInv (runProgress ops) := by
  suffices h : ∀ s, ProgressInv s → ProgressInv (ops.foldl progressStep s) by
    exact h initProgress progressInv_init
  induction ops with
  | nil => exact fun s hs => hs
  | cons op ops ih => exact fun s hs => ih _ (progressInv_step s op hs)

theorem rowMatches_found_missing (tf : TableFilters) (row : TableRow) :
    rowMatchesFilters tf .all row =
      (rowMatchesFilters tf .found row || rowMatchesFilters tf .missing row) ∧
    (rowMatchesFilters tf .found row && rowMatchesFilters tf .missing row) = false := by
  cases hm : (row.manufacturer == "—") <;>
    cases hs : (row.matchStatus == some MatchKind.mismatch) <;>
      simp [rowMatchesFilters, hm, hs]

theorem length_filter_partition (tf : TableFilters) (rows : List TableRow) :
    (filteredTableData tf .found rows).length +
        (filteredTableData tf .missing rows).length =
      (filteredTableData tf .all rows).length := by
  induction rows with
  | nil => rfl
  | cons a rows ih =>
    obtain ⟨hall, hexcl⟩ := rowMatches_found_missing tf a
    cases hf : rowMatchesFilters tf .found a <;>
      cases hm : rowMatchesFilters tf .missing a <;>
        rw [hf, hm] at hall hexcl <;>
          simp only [filteredTableData, List.filter_cons, hf, hm, hall] at ih ⊢ <;>
            simp_all <;> omega

/-- C6: with the other filters fixed, the rows passing the `found` filter
and the rows passing the `missing` filter are disjoint, and together they
are exactly the rows passing the `all` filter (`found` holds exactly when
the manufacturer is not the placeholder and the status is not `mismatch`,
`missing` is its complement). -/
theorem found_missing_partition (tf : TableFilters) (rows : List TableRow) :
    (∀ row, row ∈ filteredTableData tf .found rows →
        row ∉ filteredTableData tf .missing rows) ∧
    (∀ row, row ∈ filteredTableData tf .all rows ↔
        (row ∈ filteredTableData tf .found rows ∨
          row ∈ filteredTableData tf .missing rows)) ∧
    (filteredTableData tf .found rows).length +
        (filteredTableData tf .missing rows).length =
      (filteredTableData tf .all rows).length := by
  refine ⟨?_, ?_, length_filter_partition tf rows⟩
  · intro row hfound hmiss
    rw [filteredTableData, List.mem_filter] at hfound hmiss
    have := (rowMatches_found_missing tf row).2
    rw [hfound.2, hmiss.2] at this
    cases this
  · intro row
    rw [filteredTableData, filteredTableData, filteredTableData,
      List.mem_filter, List.mem_filter, List.mem_filter,
      (rowMatches_found_missing tf row).1]
    cases hf : rowMatchesFilters tf .found row <;>
      cases hm : rowMatchesFilters tf .missing row <;> simp

/-- Witness row for the partition theorem. -/
def sampleFoundRow : TableRow :=
  { id := 7
    key := "7-X1"
    article := "X1"
    manufacturer := "Acme"
    aliasUsed := "—"
    submitted := "—"
    matchStatus := some .matched
    matchConfidence := none
    confidence := none
    service := "—"
    source := "—"
    stageHistory := []
    debugLog := none
    createdAt := 0 }

/-- C6 witness: a concrete row passing the `found` filter is excluded from
the `missing` filter. -/
theorem found_missing_partition_witness :
    sampleFoundRow ∈ filteredTableData {} .found [sampleFoundRow] ∧
      sampleFoundRow ∉ filteredTableData {} .missing [sampleFoundRow] :=
  ⟨by decide, (found_missing_partition {} [sampleFoundRow]).1 sampleFoundRow (by decide)⟩

/-- C7: after pruning against the current filtered rows, the selection set
is a subset of the filtered rows' identities, and any previously selected
id that no longer appears among them has been removed. -/
theorem selection_subset_filtered (prev : List Nat) (tf : TableFilters)
    (mf : ManufacturerFilter) (rows : List TableRow) :
    (∀ i, i ∈ pruneSelection prev (filteredTableData tf mf rows) →
        ∃ row ∈ filteredTableData tf mf rows, row.id = i) ∧
    (∀ i, i ∈ prev → (∀ row ∈ filteredTableData tf mf rows, row.id ≠ i) →
        i ∉ pruneSelection prev (filteredTableData tf mf rows)) := by
  constructor
  · intro i hi
    rw [pruneSelection, List.mem_filter] at hi
    obtain ⟨row, hrow, hid⟩ := List.any_eq_true.mp hi.2
    exact ⟨row, hrow, by simpa using hid⟩
  · intro i _ hnone hi
    rw [pruneSelection, List.mem_filter] at hi
    obtain ⟨row, hrow, hid⟩ := List.any_eq_true.mp hi.2
    exact hnone row hrow (by simpa using hid)

/-- C7 witness: id 2 is selected but matches no filtered row, so the
pruned selection drops it. -/
theorem selection_subset_filtered_witness :
    (2 ∈ [7, 2]) ∧
      2 ∉ pruneSelection [7, 2] (filteredTableData {} .all [sampleFoundRow]) :=
  ⟨by decide,
    (selection_subset_filtered [7, 2] {} .all [sampleFoundRow]).2 2 (by decide)
      (by decide)⟩

theorem filter_key_orderedInsert (k : Nat) (x : PartRead) (l : List PartRead) :
    (List.orderedInsert createdLe x l).filter (fun a => a.created_at == k) =
      if x.created_at == k then x :: l.filter (fun a => a.created_at == k)
      else l.filter (fun a => a.created_at == k) := by
  induction l with
  | nil =>
    cases hx : (x.created_at == k) <;>
      simp [List.orderedInsert, List.filter_cons, hx]
  | cons b l ih =>
    simp only [List.orderedInsert]
    by_cases hle : createdLe x b
    · rw [if_pos hle]
      cases hx : (x.created_at == k) <;> cases hb : (b.created_at == k) <;>
        simp [List.filter_cons, hx, hb]
    · rw [if_neg hle, List.filter_cons, ih]
      have hbx : b.created_at < x.created_at := by
        unfold createdLe at hle
        omega
      cases hx : (x.created_at == k)
      · simp [List.filter_cons, hx]
      · have hxk : x.created_at = k := by simpa using hx
        have hb : (b.created_at == k) = false := by
          rw [beq_eq_false_iff_ne]
          omega
        simp [List.filter_cons, hx, hb]

theorem filter_key_insertionSort (k : Nat) (l : List PartRead) :
    (List.insertionSort createdLe l).filter (fun a => a.created_at == k) =
      l.filter (fun a => a.created_at == k) := by
  induction l with
  | nil => rfl
  | cons a l ih =>
    simp only [List.insertionSort]
    rw [filter_key_orderedInsert]
    cases ha : (a.created_at == k) <;> simp [List.filter_cons, ha, ih]

theorem filter_key_map_project (k : Nat) (l : List PartRead) :
    ((l.map projectRecord).filter (fun row => row.createdAt == k)) =
      (l.filter (fun record => record.created_at == k)).map projectRecord := by
  induction l with
  | nil => rfl
  | cons a l ih =>
    have hkey : (projectRecord a).createdAt = a.created_at := rfl
    cases ha : (a.created_at == k) <;>
      simp [List.filter_cons, hkey, ha, ih]

/-- C8: `tableData` is ordered ascending by `created_at`; it is a
permutation of the projected records; equal-timestamp rows keep the
canonical collection order (stability, expressed by commuting with the
per-timestamp filter); and a record with every optional field absent
projects to the sentinel placeholder in every derived display field. -/
theorem tableData_sorted_stable_placeholders (history : List PartRead) :
    (tableData history).Pairwise (fun a b => a.createdAt ≤ b.createdAt) ∧
    (tableData history).Perm (history.map projectRecord) ∧
    (∀ k : Nat, (tableData history).filter (fun row => row.createdAt == k) =
        (history.filter (fun record => record.created_at == k)).map projectRecord) ∧
    (∀ (id ca : Nat) (pn : String),
      (projectRecord { id := id, part_number := pn, created_at := ca }).manufacturer = "—" ∧
      (projectRecord { id := id, part_number := pn, created_at := ca }).aliasUsed = "—" ∧
      (projectRecord { id := id, part_number := pn, created_at := ca }).submitted = "—" ∧
      (projectRecord { id := id, part_number := pn, created_at := ca }).service = "—" ∧
      (projectRecord { id := id, part_number := pn, created_at := ca }).source = "—") := by
  refine ⟨?_, ?_, ?_, ?_⟩
  · exact (List.sorted_insertionSort createdLe history).map projectRecord
      (fun a b h => h)
  · exact List.Perm.map projectRecord (List.perm_insertionSort createdLe history)
  · intro k
    rw [tableData, filter_key_map_project, filter_key_insertionSort]
  · exact fun id ca pn => ⟨rfl, rfl, rfl, rfl, rfl⟩

theorem getAssoc_setAssoc (k : String) (v : α) (l : List (String × α)) :
    getAssoc k (setAssoc k v l) = some v := by
  induction l with
  | nil => simp [setAssoc, getAssoc]
  | cons p l ih =>
    obtain ⟨q, w⟩ := p
    by_cases hq : q = k <;> simp [setAssoc, getAssoc, hq, ih]

/-- C9 counterexample: a concrete column resize changes the in-memory
width (120 → 200) yet leaves the persisted store byte-for-byte unchanged
(it stays empty), so no settings change is serialized and written through. -/
theorem settings_resize_not_persisted :
    (handleColumnResize initialSettings "article" 200).storage =
        initialSettings.storage ∧
      initialSettings.storage = [] ∧
      getAssoc "article"
          (handleColumnResize initialSettings "article" 200).columnWidths =
        some 200 ∧
      getAssoc "article" initialSettings.columnWidths = some 120 := by
  refine ⟨rfl, rfl, ?_, rfl⟩
  decide

/-- C9 (amended): presentation-settings changes (column widths with the
80-pixel minimum, density/table size, font-size tier) take effect in
memory immediately but write nothing to persisted storage; only the theme
effect writes through. -/
theorem settings_changes_in_memory_only (s : SettingsModel) (column : String)
    (width : Int) (ts : TableSizeOpt) (fsz : FontSizeOpt) (tm : ThemeMode) :
    (handleColumnResize s column width).storage = s.storage ∧
    getAssoc column (handleColumnResize s column width).columnWidths =
        some (max 80 width) ∧
    (80 : Int) ≤ max 80 width ∧
    (applyTableSize s ts).storage = s.storage ∧
    (applyTableSize s ts).tableSize = ts ∧
    (applyFontSize s fsz).storage = s.storage ∧
    (applyFontSize s fsz).fontSize = fsz ∧
    getAssoc "aliasfinder:theme" (applyThemeMode s tm).storage =
        some (themeModeString tm) :=
  ⟨rfl, getAssoc_setAssoc column (max 80 width) s.columnWidths,
    le_max_left 80 width, rfl, rfl, rfl, rfl,
    getAssoc_setAssoc "aliasfinder:theme" (themeModeString tm) s.storage⟩

theorem startProgress_liveTimers {s : ProgressModel} (h : TimerInv s) :
    (startProgress s).liveTimers = [s.nextTimerId] := by
  match href : s.timerRef with
  | some t =>
    simp only [startProgress, href]
    rw [timerInv_erase_ref h href]
    rfl
  | none =>
    simp only [startProgress, href]
    rw [timerInv_live_nil h href]
    rfl

/-- C2: in every state reachable by any interleaving of simulator start,
simulator ticks, reconciliation (and the unmount cleanup), at most one
stage entry is `active`; every entry strictly before an active entry is
`done`, `warning`, `error` or `skipped` (never `pending`); every entry
strictly after an active entry is `pending` — in the simulated and the
reconciled phases alike. -/
theorem progress_active_ordering (ops : List ProgressOp) :
    (∀ i j (hi : i < (runProgress ops).stageProgress.length)
        (hj : j < (runProgress ops).stageProgress.length),
      ((runProgress ops).stageProgress.get ⟨i, hi⟩).state = StageState.active →
      ((runProgress ops).stageProgress.get ⟨j, hj⟩).state = StageState.active →
      i = j) ∧
    (∀ i j (hi : i < (runProgress ops).stageProgress.length)
        (hj : j < (runProgress ops).stageProgress.length), i < j →
      ((runProgress ops).stageProgress.get ⟨j, hj⟩).state = StageState.active →
      (((runProgress ops).stageProgress.get ⟨i, hi⟩).state = StageState.done ∨
        ((runProgress ops).stageProgress.get ⟨i, hi⟩).state = StageState.warning ∨
        ((runProgress ops).stageProgress.get ⟨i, hi⟩).state = StageState.error ∨
        ((runProgress ops).stageProgress.get ⟨i, hi⟩).state = StageState.skipped)) ∧
    (∀ i j (hi : i < (runProgress ops).stageProgress.length)
        (hj : j < (runProgress ops).stageProgress.length), i < j →
      ((runProgress ops).stageProgress.get ⟨i, hi⟩).state = StageState.active →
      ((runProgress ops).stageProgress.get ⟨j, hj⟩).state = StageState.pending) := by
  obtain ⟨_, hstage⟩ := progressInv_run ops
  rcases hstage with hnone | ⟨k, hframe⟩
  · refine ⟨?_, ?_, ?_⟩ <;> intro i j hi hj
    · intro hacti _
      exact absurd hacti (hnone _ (List.get_mem _ _ _))
    · intro _ hactj
      exact absurd hactj (hnone _ (List.get_mem _ _ _))
    · intro _ hacti
      exact absurd hacti (hnone _ (List.get_mem _ _ _))
  · have hak : ∀ i (hi : i < (runProgress ops).stageProgress.length),
        ((runProgress ops).stageProgress.get ⟨i, hi⟩).state = StageState.active →
        i = k := by
      intro i hi hact
      have hfr := hframe i hi
      rw [hact] at hfr
      split_ifs at hfr with h1 h2
      exact h2
    refine ⟨?_, ?_, ?_⟩
    · intro i j hi hj hacti hactj
      rw [hak i hi hacti, hak j hj hactj]
    · intro i j hi hj hij hactj
      have hjk := hak j hj hactj
      have hik : i < k := by omega
      have hfr := hframe i hi
      rw [if_pos hik] at hfr
      exact Or.inl hfr
    · intro i j hi hj hij hacti
      have hik := hak i hi hacti
      have h1 : ¬ j < k := by omega
      have h2 : ¬ j = k := by omega
      have hfr := hframe j hj
      rw [if_neg h1, if_neg h2] at hfr
      exact hfr

/-- C2 witness: after a start and one tick the frame is
`[done, active, pending]`, and the theorem forces the entry after the
active one to be `pending`. -/
theorem progress_active_ordering_witness :
    ((runProgress [ProgressOp.start, ProgressOp.tick]).stageProgress.get
        ⟨2, by decide⟩).state = StageState.pending :=
  (progress_active_ordering [ProgressOp.start, ProgressOp.tick]).2.2 1 2
    (by decide) (by decide) (by decide) (by decide)

/-- C4: in every reachable state at most one simulator timer is live, and
a start (even a second start with no intervening stop) always leaves
exactly one live timer, because it first cancels the previous one. -/
theorem at_most_one_timer (ops : List ProgressOp) :
    (runProgress ops).liveTimers.length ≤ 1 ∧
      (runProgress (ops ++ [ProgressOp.start, ProgressOp.start])).liveTimers.length
        = 1 := by
  refine ⟨(progressInv_run ops).1.1, ?_⟩
  have happ : runProgress (ops ++ [ProgressOp.start, ProgressOp.start]) =
      startProgress (startProgress (runProgress ops)) := by
    rw [runProgress, List.foldl_append]
    rfl
  have hinv1 : ProgressInv (startProgress (runProgress ops)) :=
    progressInv_start (progressInv_run ops)
  rw [happ, startProgress_liveTimers hinv1.1]
  rfl

/-- Conclusion of the tick theorem: the cursor advanced by one, clamped to
the last stage index; the stage list is exactly the simulator frame at the
new cursor; and if the cursor reached the last stage the interval was
cancelled, so no further tick can fire. -/
def TickConcl (s s' : ProgressModel) : Prop :=
  s'.progressIndex = min (s.progressIndex + 1) (STAGE_SEQUENCE.length - 1) ∧
  SimFrame s'.stageProgress s'.progressIndex ∧
  (s'.progressIndex = STAGE_SEQUENCE.length - 1 →
    s'.liveTimers = [] ∧ s'.timerRef = none)

/-- C3: any tick that fires in a reachable state advances the cursor by
exactly one clamped to the last stage index, repaints stages below the
cursor `done`, the cursor `active`, stages above `pending`, and the tick
that reaches the final index cancels the timer. -/
theorem tick_advances_cursor_clamped (ops : List ProgressOp)
    (hlive : (runProgress ops).liveTimers ≠ []) :
    TickConcl (runProgress ops) (tickProgress (runProgress ops)) := by
  obtain ⟨⟨hlen, hmem⟩, _⟩ := progressInv_run ops
  match hl : (runProgress ops).liveTimers with
  | [] => exact absurd hl hlive
  | u :: rest =>
    have hrest : rest = [] := by
      rw [hl] at hlen
      simp only [List.length_cons] at hlen
      exact List.length_eq_zero.mp (by omega)
    subst hrest
    have href : (runProgress ops).timerRef = some u :=
      hmem u (by rw [hl]; exact List.mem_cons_self _ _)
    have htp : tickProgress (runProgress ops) = tickBody (runProgress ops) := by
      rw [tickProgress, hl]
    rw [htp]
    have hcore := simFrame_tickStages
      (min ((runProgress ops).progressIndex + 1) (STAGE_SEQUENCE.length - 1))
      (runProgress ops).stageProgress
    by_cases hi : min ((runProgress ops).progressIndex + 1)
        (STAGE_SEQUENCE.length - 1) = STAGE_SEQUENCE.length - 1
    · refine ⟨?_, ?_, ?_⟩
      · simp [tickBody, hi, href]
      · simp only [tickBody, hi, if_pos, href]
        simpa [hi] using hcore
      · intro _
        constructor
        · simp [tickBody, hi, href, hl]
        · simp [tickBody, hi, href]
    · refine ⟨?_, ?_, ?_⟩
      · simp only [tickBody, if_neg hi]
      · simp only [tickBody, if_neg hi]
        exact hcore
      · intro hidx
        simp only [tickBody, if_neg hi] at hidx
        exact absurd hidx hi

/-- C3 witness: from the state right after `start`, a tick is live and the
tick conclusion holds concretely. -/
theorem tick_advances_cursor_clamped_witness :
    (runProgress [ProgressOp.start]).liveTimers ≠ [] ∧
      TickConcl (runProgress [ProgressOp.start])
        (tickProgress (runProgress [ProgressOp.start])) :=
  ⟨by decide, tick_advances_cursor_clamped [ProgressOp.start] (by decide)⟩

theorem finishProgress_reset_fields (s : ProgressModel)
    (history : Option (List StageStatus))
    (hempty : history = none ∨ history = some []) :
    (finishProgress s history).stageProgress =
        STAGE_SEQUENCE.map (fun name => { name := name, state := .idle }) ∧
      (finishProgress s history).currentService = "—" := by
  rcases hempty with rfl | rfl <;>
    rcases href : s.timerRef with _ | t <;>
      simp [finishProgress, resetProgress, href]

/-- C5: reconciliation with no authoritative history (absent or empty)
cancels any pending simulator timer and performs a full reset: every stage
entry becomes `idle` and the current-service label becomes the sentinel. -/
theorem finish_without_history_resets (ops : List ProgressOp)
    (history : Option (List StageStatus))
    (hempty : history = none ∨ history = some []) :
    (∀ e ∈ (finishProgress (runProgress ops) history).stageProgress,
        e.state = StageState.idle) ∧
    (finishProgress (runProgress ops) history).currentService = "—" ∧
    (finishProgress (runProgress ops) history).liveTimers = [] ∧
    (finishProgress (runProgress ops) history).timerRef = none := by
  obtain ⟨htimer, _⟩ := progressInv_run ops
  obtain ⟨hlive, href⟩ := finishProgress_timers htimer history
  obtain ⟨hstages, hservice⟩ :=
    finishProgress_reset_fields (runProgress ops) history hempty
  refine ⟨?_, hservice, hlive, href⟩
  intro e he
  rw [hstages] at he
  simp only [List.mem_map] at he
  obtain ⟨name, _, rfl⟩ := he
  rfl

/-- C5 witness: a failed search (no history) after a start resets
everything. -/
theorem finish_without_history_resets_witness :
    ((none : Option (List StageStatus)) = none ∨
        (none : Option (List StageStatus)) = some []) ∧
      ((∀ e ∈ (finishProgress (runProgress [ProgressOp.start]) none).stageProgress,
          e.state = StageState.idle) ∧
        (finishProgress (runProgress [ProgressOp.start]) none).currentService = "—" ∧
        (finishProgress (runProgress [ProgressOp.start]) none).liveTimers = [] ∧
        (finishProgress (runProgress [ProgressOp.start]) none).timerRef = none) :=
  ⟨Or.inl rfl, finish_without_history_resets [ProgressOp.start] none (Or.inl rfl)⟩

theorem getD_map_of_lt (f : α → β) (l : List α) (i : Nat) (hi : i < l.length)
    (d : β) (d' : α) : (l.map f).getD i d = f (l.getD i d') := by
  induction l generalizing i with
  | nil => exact absurd hi (Nat.not_lt_zero i)
  | cons a l ih =>
    cases i with
    | zero => rfl
    | succ i =>
      simp only [List.map_cons, List.getD_cons_succ]
      exact ih i (Nat.lt_of_succ_lt_succ hi)

/-- Conclusion of the non-empty reconciliation theorem: the stage display
keeps the three fixed stages; a stage whose name matches no history entry
renders `pending`; a stage with a matching entry renders the mapped state
of that entry (`success→done`, `low-confidence→warning`,
`no-results→error`, `skipped→skipped`); and the current-service label is
the label of the last history entry with status `success`, else the label
of the first entry with status `low-confidence`, else the sentinel. -/
def FinishHistoryConcl (s : ProgressModel) (hist : List StageStatus) : Prop :=
  (finishProgress s (some hist)).stageProgress.length = STAGE_SEQUENCE.length ∧
  (∀ i, i < STAGE_SEQUENCE.length →
    ((finishProgress s (some hist)).stageProgress.getD i
        { name := "", state := .idle }).name = STAGE_SEQUENCE.getD i "" ∧
    ((∀ st ∈ hist, st.name ≠ STAGE_SEQUENCE.getD i "") →
      ((finishProgress s (some hist)).stageProgress.getD i
          { name := "", state := .idle }).state = StageState.pending) ∧
    (∀ st, hist.find? (fun item => item.name == STAGE_SEQUENCE.getD i "") = some st →
      ((finishProgress s (some hist)).stageProgress.getD i
          { name := "", state := .idle }).state = mapOutcome st.status)) ∧
  ((finishProgress s (some hist)).currentService =
    match (hist.filter (fun st => st.status == OutcomeStatus.success)).getLast? with
    | some last => labelOf last.name
    | none =>
      match hist.find? (fun st => st.status == OutcomeStatus.lowConfidence) with
      | some first => labelOf first.name
      | none => "—")

/-- C1: reconciling with any non-empty authoritative history paints each
fixed stage from its matching history entry (or `pending` when absent) and
resolves the current service as last-success, else first-low-confidence,
else the sentinel. -/
theorem finish_with_nonempty_history (s : ProgressModel)
    (hist : List StageStatus) (hne : hist ≠ []) :
    FinishHistoryConcl s hist := by
  match hist, hne with
  | e :: rest, _ =>
    have hfields :
        (finishProgress s (some (e :: rest))).stageProgress =
          STAGE_SEQUENCE.map (fun name =>
            match (e :: rest).find? (fun item => item.name == name) with
            | none => { name := name, state := .pending }
            | some stage =>
              { name := name, state := mapOutcome stage.status,
                message := stage.message }) ∧
        (finishProgress s (some (e :: rest))).currentService =
          (match ((e :: rest).reverse.find?
                (fun stage => stage.status == OutcomeStatus.success)).or
              ((e :: rest).find?
                (fun stage => stage.status == OutcomeStatus.lowConfidence)) with
          | some finalStage => labelOf finalStage.name
          | none => "—") := by
      rcases href : s.timerRef with _ | t <;> simp [finishProgress, href]
    refine ⟨?_, ?_, ?_⟩
    · rw [hfields.1, List.length_map]
    · intro i hi
      rw [hfields.1, getD_map_of_lt _ _ i hi _ ""]
      refine ⟨?_, ?_, ?_⟩
      · cases hfnd : (e :: rest).find?
            (fun item => item.name == STAGE_SEQUENCE.getD i "") <;> simp [hfnd]
      · intro habsent
        have hnone : (e :: rest).find?
            (fun item => item.name == STAGE_SEQUENCE.getD i "") = none := by
          rw [List.find?_eq_none]
          intro st hst
          simpa using habsent st hst
        simp only [hnone]
      · intro st hfnd
        simp only [hfnd]
    · rw [hfields.2, reverse_find?_eq_getLast?_filter]
      cases hg : ((e :: rest).filter
          (fun st => st.status == OutcomeStatus.success)).getLast? <;>
        cases hfnd : (e :: rest).find?
            (fun st => st.status == OutcomeStatus.lowConfidence) <;>
          simp [Option.or, hg, hfnd]

/-- History used by the reconciliation witnesses (§8 scenario of the spec). -/
def sampleHistory : List StageStatus :=
  [{ name := "Internet", status := .noResults },
   { name := "googlesearch", status := .success, message := some "matched via CSE" }]

/-- C1 witness: the spec's end-to-end history reconciles concretely. -/
theorem finish_with_nonempty_history_witness :
    sampleHistory ≠ [] ∧ FinishHistoryConcl initProgress sampleHistory :=
  ⟨by decide, finish_with_nonempty_history initProgress sampleHistory (by decide)⟩

/-- C10: the reconciled display after a search depends only on the first
result's stage history — two responses whose first results carry the same
history produce identical stage states and service label, whatever their
other results or fields — and an empty results list reconciles to the
full reset. -/
theorem reconcile_depends_only_on_first_history (s : ProgressModel) :
    (∀ (results1 results2 : List SearchResult) (r1 r2 : SearchResult),
      results1.head? = some r1 → results2.head? = some r2 →
      r1.stage_history = r2.stage_history →
      (reconcileSearch s results1).stageProgress =
          (reconcileSearch s results2).stageProgress ∧
        (reconcileSearch s results1).currentService =
          (reconcileSearch s results2).currentService) ∧
    ((∀ e ∈ (reconcileSearch s []).stageProgress, e.state = StageState.idle) ∧
      (reconcileSearch s []).currentService = "—") := by
  constructor
  · intro results1 results2 r1 r2 h1 h2 hsame
    have e1 : latestStageHistory results1 = r1.stage_history := by
      rw [latestStageHistory, h1]
    have e2 : latestStageHistory results2 = r2.stage_history := by
      rw [latestStageHistory, h2]
    rw [reconcileSearch, reconcileSearch, e1, e2, hsame]
    exact ⟨rfl, rfl⟩
  · obtain ⟨hstages, hservice⟩ :=
      finishProgress_reset_fields s none (Or.inl rfl)
    refine ⟨?_, hservice⟩
    intro e he
    have hre : reconcileSearch s [] = finishProgress s none := rfl
    rw [hre, hstages] at he
    simp only [List.mem_map] at he
    obtain ⟨name, _, rfl⟩ := he
    rfl

/-- First result of the first sample response for the C10 witness. -/
def sampleResultA : SearchResult :=
  { part_number := "ABC-123"
    manufacturer_name := some "Acme"
    stage_history := some sampleHistory }

/-- First result of the second sample response: different fields, same
stage history. -/
def sampleResultB : SearchResult :=
  { part_number := "XYZ-9"
    stage_history := some sampleHistory }

/-- An extra trailing result with a different history, which must not
influence the reconciled display. -/
def sampleResultOther : SearchResult :=
  { part_number := "Q-0"
    stage_history := some [{ name := "OpenAI", status := .skipped }] }

/-- C10 witness: two concrete responses with equal first histories but
different other fields and extra results reconcile identically. -/
theorem reconcile_depends_only_on_first_history_witness :
    [sampleResultA].head? = some sampleResultA ∧
    [sampleResultB, sampleResultOther].head? = some sampleResultB ∧
    sampleResultA.stage_history = sampleResultB.stage_history ∧
    ((reconcileSearch initProgress [sampleResultA]).stageProgress =
        (reconcileSearch initProgress [sampleResultB, sampleResultOther]).stageProgress ∧
      (reconcileSearch initProgress [sampleResultA]).currentService =
        (reconcileSearch initProgress [sampleResultB, sampleResultOther]).currentService) :=
  ⟨rfl, rfl, rfl,
    (reconcile_depends_only_on_first_history initProgress).1 [sampleResultA]
      [sampleResultB, sampleResultOther] sampleResultA sampleResultB rfl rfl rfl⟩
